import Mathlib

/-!
Shallow embedding of the `gray_code<Unsigned>` class template of the
cpp-gray repository (`include/cpp-gray/gray.h`, `include/cpp-gray/gray.inl`).

An unsigned machine integer of width `W` is modelled as a natural number
below `2 ^ W`; wrap-around of C++ unsigned arithmetic is written explicitly
with `% 2 ^ W`.  A `gray_code<Unsigned>` value is identified with its single
data member `value` (the raw Gray representation), so the member functions
become functions on that natural number.  The supported C++ widths
(8, 16, 32, 64 bits) are all powers of two, so width-generic theorems are
stated for `W = 2 ^ k`.
-/

namespace CppGray

/-- Models the converting constructor `gray_code(value_type value)`
(`gray.inl` line 35): the stored representation is `(value >> 1) ^ value`. -/
def to_gray (x : ℕ) : ℕ :=
  (x >>> 1) ^^^ x

/-- Fuel-driven rendering of the halving loop
`for (mask = digits/2; mask; mask >>= 1) res ^= res >> mask;`
shared (textually identical) by `operator value_type` (`gray.inl` lines
68-73) and the portable branch of `is_odd` (`gray.inl` lines 451-454).
The loop halves `mask` until it reaches 0, so it runs `size mask` times;
the fuel argument is always instantiated with `mask` itself, which is at
least that large, hence the fuel-exhaustion branch is never taken. -/
def convFold : ℕ → ℕ → ℕ → ℕ
  | _, res, 0 => res
  | 0, res, _ + 1 => res
  | fuel + 1, res, mask + 1 => convFold fuel (res ^^^ (res >>> (mask + 1))) ((mask + 1) / 2)

/-- Models the explicit conversion `operator value_type()` (`gray.inl`
lines 65-75): starting from the stored representation, fold with the mask
sequence `W/2, W/4, ..., 1`. -/
def from_gray (W g : ℕ) : ℕ :=
  convFold (W / 2) g (W / 2)

/-- Fuel-driven population count (number of set bits), the semantics of the
GCC/Clang intrinsic `__builtin_parity` used by `is_odd` (`gray.inl` line
447) once reduced modulo 2.  The fuel is instantiated with the number
itself, which bounds the number of halvings, so exhaustion never occurs. -/
def popCountF : ℕ → ℕ → ℕ
  | _, 0 => 0
  | 0, _ + 1 => 0
  | fuel + 1, n + 1 => (n + 1) % 2 + popCountF fuel ((n + 1) / 2)

/-- Population count of a natural number. -/
def popCount (n : ℕ) : ℕ :=
  popCountF n n

/-- Models `is_odd` (`gray.inl` lines 437-458), compiler-intrinsic branch:
`static_cast<bool>(__builtin_parity(code.value))`, i.e. whether the
population count of the representation is odd. -/
def is_odd (g : ℕ) : Bool :=
  popCount g % 2 == 1

/-- Models the portable `#else` branch of `is_odd` (`gray.inl` lines
451-455): run the halving XOR-fold loop on the representation, then test
bit 0 (`static_cast<bool>(code.value & 1)`). -/
def is_odd_fold (W g : ℕ) : Bool :=
  (convFold (W / 2) g (W / 2)) &&& 1 == 1

/-- Models `is_even` (`gray.inl` lines 430-435): `not is_odd(code)`. -/
def is_even (g : ℕ) : Bool :=
  !is_odd g

/-- Models the constant `msb = 1 << (digits - 1)` of `operator++` /
`operator--` (`gray.inl` lines 90 and 124). -/
def msb (W : ℕ) : ℕ :=
  1 <<< (W - 1)

/-- Models unary minus on a `W`-bit unsigned value (`-value` in
`value & -value`, `gray.inl` lines 100 and 138): two's-complement
negation, i.e. `2^W - g` wrapped into `[0, 2^W)`. -/
def negU (W g : ℕ) : ℕ :=
  (2 ^ W - g) % 2 ^ W

/-- Models `auto y = value & -value` (`gray.inl` lines 100 and 138):
isolation of the lowest set bit of the representation. -/
def lowestBit (W g : ℕ) : ℕ :=
  g &&& negU W g

/-- Models prefix `operator++` (`gray.inl` lines 86-109) as a function on
the stored representation: when the parity of the representation is odd,
either wrap from the most-significant-bit pattern to 0 or XOR with the
doubled lowest set bit; otherwise flip bit 0. -/
def succ_g (W g : ℕ) : ℕ :=
  if is_odd g then
    if g = msb W then 0
    else g ^^^ ((lowestBit W g <<< 1) % 2 ^ W)
  else g ^^^ 1

/-- Models prefix `operator--` (`gray.inl` lines 120-143) as a function on
the stored representation: mirror rule of `succ_g`. -/
def pred_g (W g : ℕ) : ℕ :=
  if is_odd g then g ^^^ 1
  else
    if g = 0 then msb W
    else g ^^^ ((lowestBit W g <<< 1) % 2 ^ W)

/-- Models `operator==(gray_code, gray_code)` (`gray.inl` line 262):
`lhs.value == rhs.value`. -/
def gray_eq_gg (a b : ℕ) : Bool :=
  a == b

/-- Models `operator!=(gray_code, gray_code)` (`gray.inl` line 269):
`lhs.value != rhs.value`. -/
def gray_ne_gg (a b : ℕ) : Bool :=
  a != b

/-- Models `operator==(gray_code, Unsigned)` (`gray.inl` line 276):
`(rhs ^ (rhs >> 1)) == lhs.value`. -/
def gray_eq_gu (g n : ℕ) : Bool :=
  (n ^^^ (n >>> 1)) == g

/-- Models `operator!=(gray_code, Unsigned)` (`gray.inl` line 283). -/
def gray_ne_gu (g n : ℕ) : Bool :=
  (n ^^^ (n >>> 1)) != g

/-- Models `operator==(Unsigned, gray_code)` (`gray.inl` line 290):
`(lhs ^ (lhs >> 1)) == rhs.value`. -/
def gray_eq_ug (n g : ℕ) : Bool :=
  (n ^^^ (n >>> 1)) == g

/-- Models `operator!=(Unsigned, gray_code)` (`gray.inl` line 297). -/
def gray_ne_ug (n g : ℕ) : Bool :=
  (n ^^^ (n >>> 1)) != g

/-- Models `operator&=(gray_code)` (`gray.inl` lines 157-163):
`value &= other.value`. -/
def and_assign (s o : ℕ) : ℕ :=
  s &&& o

/-- Models `operator|=(gray_code)` (`gray.inl` lines 181-187). -/
def or_assign (s o : ℕ) : ℕ :=
  s ||| o

/-- Models `operator^=(gray_code)` (`gray.inl` lines 205-211). -/
def xor_assign (s o : ℕ) : ℕ :=
  s ^^^ o

/-- Models `operator>>=(std::size_t)` (`gray.inl` lines 229-235). -/
def shr_assign (s p : ℕ) : ℕ :=
  s >>> p

/-- Models `operator<<=(std::size_t)` (`gray.inl` lines 237-243); the
left shift wraps at width `W`. -/
def shl_assign (W s p : ℕ) : ℕ :=
  (s <<< p) % 2 ^ W

/-- Models `operator&(gray_code, gray_code)` (`gray.inl` lines 303-308),
which returns `lhs &= rhs`. -/
def gray_and (a b : ℕ) : ℕ :=
  and_assign a b

/-- Models `operator|(gray_code, gray_code)` (`gray.inl` lines 310-315). -/
def gray_or (a b : ℕ) : ℕ :=
  or_assign a b

/-- Models `operator^(gray_code, gray_code)` (`gray.inl` lines 317-322). -/
def gray_xor (a b : ℕ) : ℕ :=
  xor_assign a b

/-- Models `operator~(gray_code)` (`gray.inl` lines 324-330):
`val.value = ~val.value`, the `W`-bit complement. -/
def gray_not (W v : ℕ) : ℕ :=
  (2 ^ W - 1) ^^^ v

/-- Models `operator>>(gray_code, std::size_t)` (`gray.inl` lines
332-337), which returns `val >>= pos`. -/
def gray_shr (v p : ℕ) : ℕ :=
  shr_assign v p

/-- Models `operator<<(gray_code, std::size_t)` (`gray.inl` lines
339-344), which returns `val <<= pos`. -/
def gray_shl (W v p : ℕ) : ℕ :=
  shl_assign W v p

/-! ### Generic lemmas about XOR, AND and shifts on natural numbers -/

theorem xor_shiftRight (a b k : ℕ) :
    (a ^^^ b) >>> k = (a >>> k) ^^^ (b >>> k) := by
  apply Nat.eq_of_testBit_eq
  intro i
  simp [Nat.testBit_shiftRight, Nat.testBit_xor]

theorem two_mul_add_xor (x y u v : ℕ) (hu : u < 2) (hv : v < 2) :
    (2 * x + u) ^^^ (2 * y + v) = 2 * (x ^^^ y) + (u ^^^ v) := by
  have huv : u ^^^ v < 2 := by interval_cases u <;> interval_cases v <;> decide
  apply Nat.eq_of_testBit_eq
  intro i
  cases i with
  | zero =>
    rw [Nat.testBit_xor, Nat.testBit_zero, Nat.testBit_zero, Nat.testBit_zero]
    have h1 : (2 * x + u) % 2 = u := by omega
    have h2 : (2 * y + v) % 2 = v := by omega
    have h3 : (2 * (x ^^^ y) + (u ^^^ v)) % 2 = u ^^^ v := by omega
    rw [h1, h2, h3]
    interval_cases u <;> interval_cases v <;> decide
  | succ i =>
    rw [Nat.testBit_xor, Nat.testBit_add_one, Nat.testBit_add_one, Nat.testBit_add_one]
    have h1 : (2 * x + u) / 2 = x := by omega
    have h2 : (2 * y + v) / 2 = y := by omega
    have h3 : (2 * (x ^^^ y) + (u ^^^ v)) / 2 = x ^^^ y := by omega
    rw [h1, h2, h3, Nat.testBit_xor]

theorem two_mul_add_and (x y u v : ℕ) (hu : u < 2) (hv : v < 2) :
    (2 * x + u) &&& (2 * y + v) = 2 * (x &&& y) + (u &&& v) := by
  have huv : u &&& v < 2 := by interval_cases u <;> interval_cases v <;> decide
  apply Nat.eq_of_testBit_eq
  intro i
  cases i with
  | zero =>
    rw [Nat.testBit_and, Nat.testBit_zero, Nat.testBit_zero, Nat.testBit_zero]
    have h1 : (2 * x + u) % 2 = u := by omega
    have h2 : (2 * y + v) % 2 = v := by omega
    have h3 : (2 * (x &&& y) + (u &&& v)) % 2 = u &&& v := by omega
    rw [h1, h2, h3]
    interval_cases u <;> interval_cases v <;> decide
  | succ i =>
    rw [Nat.testBit_and, Nat.testBit_add_one, Nat.testBit_add_one, Nat.testBit_add_one]
    have h1 : (2 * x + u) / 2 = x := by omega
    have h2 : (2 * y + v) / 2 = y := by omega
    have h3 : (2 * (x &&& y) + (u &&& v)) / 2 = x &&& y := by omega
    rw [h1, h2, h3, Nat.testBit_and]

theorem two_mul_xor (x y : ℕ) : (2 * x) ^^^ (2 * y) = 2 * (x ^^^ y) := by
  have h := two_mul_add_xor x y 0 0 (by omega) (by omega)
  simpa using h

theorem two_mul_and (x y : ℕ) : (2 * x) &&& (2 * y) = 2 * (x &&& y) := by
  have h := two_mul_add_and x y 0 0 (by omega) (by omega)
  simpa using h

theorem xor_xor_cancel (x y z : ℕ) : (x ^^^ y) ^^^ (y ^^^ z) = x ^^^ z := by
  rw [Nat.xor_assoc, ← Nat.xor_assoc y y z, Nat.xor_self, Nat.zero_xor]

theorem shiftRight_eq_zero {x n : ℕ} (h : x < 2 ^ n) : x >>> n = 0 := by
  rw [Nat.shiftRight_eq_div_pow]
  exact Nat.div_eq_of_lt h

/-! ### The lowest set bit: `value & -value` isolates `2 ^ t` -/

theorem and_mask_sub_eq_zero : ∀ n a, a < 2 ^ n → a &&& (2 ^ n - 1 - a) = 0 := by
  intro n
  induction n with
  | zero =>
    intro a ha
    have h0 : a = 0 := by omega
    subst h0
    decide
  | succ n ih =>
    intro a ha
    have hp : 2 ^ (n + 1) = 2 * 2 ^ n := by rw [pow_succ]; ring
    obtain ⟨x, u, hu, rfl⟩ : ∃ x u, u < 2 ∧ a = 2 * x + u :=
      ⟨a / 2, a % 2, by omega, by omega⟩
    have hx : x < 2 ^ n := by omega
    have hs : 2 ^ (n + 1) - 1 - (2 * x + u) = 2 * (2 ^ n - 1 - x) + (1 - u) := by omega
    rw [hs, two_mul_add_and x (2 ^ n - 1 - x) u (1 - u) hu (by omega), ih x hx]
    interval_cases u <;> decide

theorem and_two_pow_sub :
    ∀ t W m, m % 2 = 1 → 2 ^ t * m < 2 ^ W →
      (2 ^ t * m) &&& (2 ^ W - 2 ^ t * m) = 2 ^ t := by
  intro t
  induction t with
  | zero =>
    intro W m hm h
    simp only [pow_zero, one_mul] at h ⊢
    have hW : 1 ≤ W := by
      rcases Nat.eq_zero_or_pos W with hW0 | hW1
      · subst hW0; simp at h; omega
      · exact hW1
    have hp : 2 ^ W = 2 * 2 ^ (W - 1) := by
      conv_lhs => rw [show W = (W - 1) + 1 by omega]
      rw [pow_succ]; ring
    obtain ⟨a, rfl⟩ : ∃ a, m = 2 * a + 1 := ⟨m / 2, by omega⟩
    have ha : a < 2 ^ (W - 1) := by omega
    have hs : 2 ^ W - (2 * a + 1) = 2 * (2 ^ (W - 1) - 1 - a) + 1 := by omega
    rw [hs, two_mul_add_and a (2 ^ (W - 1) - 1 - a) 1 1 (by omega) (by omega),
        and_mask_sub_eq_zero (W - 1) a ha]
    decide
  | succ t ih =>
    intro W m hm h
    have hm1 : 1 ≤ m := by omega
    have hA1 : 1 ≤ 2 ^ t * m := Nat.mul_pos (Nat.pos_pow_of_pos t (by omega)) (by omega)
    have h2 : 2 ^ (t + 1) * m = 2 * (2 ^ t * m) := by ring
    have hW : 1 ≤ W := by
      rcases Nat.eq_zero_or_pos W with hW0 | hW1
      · subst hW0; rw [h2] at h; simp at h; omega
      · exact hW1
    have hp : 2 ^ W = 2 * 2 ^ (W - 1) := by
      conv_lhs => rw [show W = (W - 1) + 1 by omega]
      rw [pow_succ]; ring
    have hA : 2 ^ t * m < 2 ^ (W - 1) := by
      rw [h2] at h; omega
    have hs : 2 ^ W - 2 ^ (t + 1) * m = 2 * (2 ^ (W - 1) - 2 ^ t * m) := by
      rw [h2]; omega
    rw [hs, h2, two_mul_and, ih (W - 1) m hm hA, pow_succ]
    ring

theorem two_pow_mul_xor : ∀ t a b, (2 ^ t * a) ^^^ (2 ^ t * b) = 2 ^ t * (a ^^^ b) := by
  intro t
  induction t with
  | zero => intro a b; simp
  | succ t ih =>
    intro a b
    have h2 : ∀ c, 2 ^ (t + 1) * c = 2 * (2 ^ t * c) := by intro c; ring
    rw [h2 a, h2 b, h2 (a ^^^ b), two_mul_xor, ih]

/-! ### Population count -/

theorem popCountF_stable : ∀ f g n, n ≤ f → n ≤ g → popCountF f n = popCountF g n := by
  intro f
  induction f with
  | zero =>
    intro g n hf hg
    have h0 : n = 0 := by omega
    subst h0
    cases g <;> rfl
  | succ f ih =>
    intro g n hf hg
    cases n with
    | zero => cases g <;> rfl
    | succ k =>
      cases g with
      | zero => omega
      | succ g₂ =>
        show (k + 1) % 2 + popCountF f ((k + 1) / 2)
           = (k + 1) % 2 + popCountF g₂ ((k + 1) / 2)
        rw [ih g₂ ((k + 1) / 2) (by omega) (by omega)]

theorem popCount_rec (n : ℕ) (h : 0 < n) : popCount n = n % 2 + popCount (n / 2) := by
  obtain ⟨k, rfl⟩ : ∃ k, n = k + 1 := ⟨n - 1, by omega⟩
  show popCountF (k + 1) (k + 1) = _
  have h1 : popCountF (k + 1) (k + 1) = (k + 1) % 2 + popCountF k ((k + 1) / 2) := rfl
  rw [h1]
  congr 1
  exact popCountF_stable k ((k + 1) / 2) ((k + 1) / 2) (by omega) (le_refl _)

theorem popCount_zero : popCount 0 = 0 := rfl

theorem popCount_two_mul_add (z w : ℕ) (hw : w < 2) :
    popCount (2 * z + w) = popCount z + w := by
  rcases Nat.eq_zero_or_pos (2 * z + w) with h0 | hpos
  · have hz : z = 0 := by omega
    have hw0 : w = 0 := by omega
    subst hz; subst hw0; rfl
  · rw [popCount_rec (2 * z + w) hpos]
    have h1 : (2 * z + w) % 2 = w := by omega
    have h2 : (2 * z + w) / 2 = z := by omega
    rw [h1, h2]
    omega

theorem popCount_xor_mod_two : ∀ a b, popCount (a ^^^ b) % 2 = (popCount a + popCount b) % 2 := by
  intro a
  induction a using Nat.strong_induction_on with
  | _ a ih =>
    intro b
    rcases Nat.eq_zero_or_pos a with h0 | hpos
    · subst h0
      rw [Nat.zero_xor, popCount_zero]
      omega
    · obtain ⟨x, u, hu, rfl⟩ : ∃ x u, u < 2 ∧ a = 2 * x + u :=
        ⟨a / 2, a % 2, by omega, by omega⟩
      obtain ⟨y, v, hv, rfl⟩ : ∃ y v, v < 2 ∧ b = 2 * y + v :=
        ⟨b / 2, b % 2, by omega, by omega⟩
      have huv : u ^^^ v < 2 := by interval_cases u <;> interval_cases v <;> decide
      rw [two_mul_add_xor x y u v hu hv,
          popCount_two_mul_add (x ^^^ y) (u ^^^ v) huv,
          popCount_two_mul_add x u hu, popCount_two_mul_add y v hv]
      have hx : x < 2 * x + u := by omega
      have hih := ih x hx y
      have huv2 : (u ^^^ v) % 2 = (u + v) % 2 := by
        interval_cases u <;> interval_cases v <;> decide
      omega

theorem popCount_one : popCount 1 = 1 := rfl

theorem popCount_two_pow : ∀ n, popCount (2 ^ n) = 1 := by
  intro n
  induction n with
  | zero => rfl
  | succ n ih =>
    have h : 2 ^ (n + 1) = 2 * 2 ^ n + 0 := by rw [pow_succ]; ring
    rw [h, popCount_two_mul_add (2 ^ n) 0 (by omega), ih]

theorem popCount_to_gray_parity (x : ℕ) : popCount (to_gray x) % 2 = x % 2 := by
  unfold to_gray
  rcases Nat.eq_zero_or_pos x with h0 | hpos
  · subst h0; rfl
  · have h1 : popCount ((x >>> 1) ^^^ x) % 2 = (popCount (x >>> 1) + popCount x) % 2 :=
      popCount_xor_mod_two (x >>> 1) x
    rw [Nat.shiftRight_one] at h1 ⊢
    have h2 : popCount x = x % 2 + popCount (x / 2) := popCount_rec x hpos
    omega

theorem is_odd_iff (g : ℕ) : is_odd g = true ↔ popCount g % 2 = 1 := by
  unfold is_odd
  simp

theorem is_odd_eq_false_iff (g : ℕ) : is_odd g = false ↔ popCount g % 2 = 0 := by
  unfold is_odd
  simp

/-! ### The conversion loop -/

theorem convFold_mask_zero (fuel x : ℕ) : convFold fuel x 0 = x := by
  cases fuel <;> rfl

theorem convFold_succ (f x m : ℕ) :
    convFold (f + 1) x (m + 1) = convFold f (x ^^^ (x >>> (m + 1))) ((m + 1) / 2) := rfl

theorem convFold_zero_val (fuel : ℕ) : ∀ mask, convFold fuel 0 mask = 0 := by
  induction fuel with
  | zero => intro mask; cases mask <;> rfl
  | succ f ih =>
    intro mask
    cases mask with
    | zero => rfl
    | succ m =>
      rw [convFold_succ, Nat.zero_shiftRight, Nat.zero_xor, ih]

theorem convFold_lt {W : ℕ} (fuel : ℕ) :
    ∀ mask res, res < 2 ^ W → convFold fuel res mask < 2 ^ W := by
  induction fuel with
  | zero => intro mask res h; cases mask <;> exact h
  | succ f ih =>
    intro mask res h
    cases mask with
    | zero => exact h
    | succ m =>
      rw [convFold_succ]
      apply ih
      apply Nat.xor_lt_two_pow h
      calc res >>> (m + 1) ≤ res := by
             rw [Nat.shiftRight_eq_div_pow]; exact Nat.div_le_self _ _
        _ < 2 ^ W := h

theorem to_gray_step (x m : ℕ) :
    to_gray (x ^^^ (x >>> m)) = to_gray x ^^^ (to_gray x >>> m) := by
  unfold to_gray
  rw [xor_shiftRight, xor_shiftRight]
  apply Nat.eq_of_testBit_eq
  intro i
  simp only [Nat.testBit_xor, Nat.testBit_shiftRight]
  rw [show m + (1 + i) = 1 + (m + i) by omega]
  cases x.testBit (1 + i) <;> cases x.testBit i <;>
    cases x.testBit (1 + (m + i)) <;> cases x.testBit (m + i) <;> rfl

theorem convFold_to_gray (fuel : ℕ) :
    ∀ mask x, convFold fuel (to_gray x) mask = to_gray (convFold fuel x mask) := by
  induction fuel with
  | zero => intro mask x; cases mask <;> rfl
  | succ f ih =>
    intro mask x
    cases mask with
    | zero => rfl
    | succ m =>
      rw [convFold_succ, convFold_succ, ← to_gray_step, ih]

theorem convFold_pow (k : ℕ) :
    ∀ fuel x, 2 ^ k ≤ fuel →
      to_gray (convFold fuel x (2 ^ k)) = x ^^^ (x >>> 2 ^ (k + 1)) := by
  induction k with
  | zero =>
    intro fuel x hf
    obtain ⟨f, rfl⟩ : ∃ f, fuel = f + 1 := ⟨fuel - 1, by omega⟩
    show to_gray (convFold f (x ^^^ (x >>> 1)) 0) = x ^^^ x >>> 2 ^ (0 + 1)
    rw [convFold_mask_zero]
    unfold to_gray
    rw [xor_shiftRight, Nat.xor_comm (x >>> 1 ^^^ x >>> 1 >>> 1) (x ^^^ x >>> 1),
        xor_xor_cancel, ← Nat.shiftRight_add]
    rfl
  | succ k ih =>
    intro fuel x hf
    have hpos : 1 ≤ 2 ^ (k + 1) := Nat.one_le_two_pow
    obtain ⟨m, hm⟩ : ∃ m, 2 ^ (k + 1) = m + 1 := ⟨2 ^ (k + 1) - 1, by omega⟩
    have hps : (2 : ℕ) ^ (k + 1) = 2 * 2 ^ k := by rw [pow_succ]; ring
    obtain ⟨f, rfl⟩ : ∃ f, fuel = f + 1 := ⟨fuel - 1, by omega⟩
    have hhalf : (m + 1) / 2 = 2 ^ k := by omega
    rw [hm, convFold_succ, hhalf, ← hm]
    have hfpow : 2 ^ k ≤ f := by omega
    rw [ih f (x ^^^ (x >>> 2 ^ (k + 1))) hfpow]
    rw [xor_shiftRight]
    rw [xor_xor_cancel, ← Nat.shiftRight_add]
    congr 1
    congr 1
    rw [pow_succ 2 (k + 1)]
    omega

theorem from_gray_to_gray (k x : ℕ) (hx : x < 2 ^ 2 ^ k) :
    from_gray (2 ^ k) (to_gray x) = x := by
  cases k with
  | zero =>
    have h2 : x < 2 := by simpa using hx
    interval_cases x <;> rfl
  | succ k =>
    have hW2 : 2 ^ (k + 1) / 2 = 2 ^ k := by rw [pow_succ]; omega
    unfold from_gray
    rw [hW2, convFold_to_gray, convFold_pow k (2 ^ k) x (le_refl _),
        shiftRight_eq_zero hx, Nat.xor_zero]

theorem to_gray_from_gray (k g : ℕ) (hg : g < 2 ^ 2 ^ k) :
    to_gray (from_gray (2 ^ k) g) = g := by
  cases k with
  | zero =>
    have h2 : g < 2 := by simpa using hg
    interval_cases g <;> rfl
  | succ k =>
    have hW2 : 2 ^ (k + 1) / 2 = 2 ^ k := by rw [pow_succ]; omega
    unfold from_gray
    rw [hW2, convFold_pow k (2 ^ k) g (le_refl _), shiftRight_eq_zero hg, Nat.xor_zero]

theorem to_gray_lt {W x : ℕ} (hx : x < 2 ^ W) : to_gray x < 2 ^ W := by
  unfold to_gray
  apply Nat.xor_lt_two_pow _ hx
  calc x >>> 1 ≤ x := by rw [Nat.shiftRight_eq_div_pow]; exact Nat.div_le_self _ _
    _ < 2 ^ W := hx

theorem from_gray_lt {W g : ℕ} (hg : g < 2 ^ W) : from_gray W g < 2 ^ W :=
  convFold_lt (W / 2) (W / 2) g hg

/-! ### Further structural lemmas -/

theorem to_gray_ones (n : ℕ) : to_gray (2 ^ (n + 1) - 1) = 2 ^ n := by
  unfold to_gray
  have hp : (2 : ℕ) ^ (n + 1) = 2 * 2 ^ n := by rw [pow_succ]; ring
  have h1 : (2 ^ (n + 1) - 1) >>> 1 = 2 ^ n - 1 := by
    rw [Nat.shiftRight_one]; omega
  rw [h1]
  apply Nat.eq_of_testBit_eq
  intro i
  rw [Nat.testBit_xor, Nat.testBit_two_pow_sub_one, Nat.testBit_two_pow_sub_one,
      Nat.testBit_two_pow]
  by_cases h2 : i < n
  · have h3 : i < n + 1 := by omega
    have h4 : ¬n = i := by omega
    simp [h2, h3, h4]
  · by_cases h3 : i < n + 1
    · have h4 : n = i := by omega
      simp [h2, h3, h4]
    · have h4 : ¬n = i := by omega
      simp [h2, h3, h4]

theorem xor_succ : ∀ x : ℕ, ∃ s, x ^^^ (x + 1) = 2 ^ (s + 1) - 1 := by
  intro x
  induction x using Nat.strong_induction_on with
  | _ x ih =>
    obtain ⟨a, u, hu, rfl⟩ : ∃ a u, u < 2 ∧ x = 2 * a + u :=
      ⟨x / 2, x % 2, by omega, by omega⟩
    interval_cases u
    · refine ⟨0, ?_⟩
      have h1 : 2 * a + 0 + 1 = 2 * a + 1 := by omega
      rw [h1, two_mul_add_xor a a 0 1 (by omega) (by omega), Nat.xor_self]
      decide
    · obtain ⟨s, hs⟩ := ih a (by omega)
      refine ⟨s + 1, ?_⟩
      have h1 : 2 * a + 1 + 1 = 2 * (a + 1) + 0 := by omega
      rw [h1, two_mul_add_xor a (a + 1) 1 0 (by omega) (by omega), hs]
      have h10 : (1 : ℕ) ^^^ 0 = 1 := rfl
      rw [h10]
      have hp : (2 : ℕ) ^ (s + 1 + 1) = 2 * 2 ^ (s + 1) := by rw [pow_succ]; ring
      have hpos : (1 : ℕ) ≤ 2 ^ (s + 1) := Nat.one_le_two_pow
      omega

theorem to_gray_xor (a b : ℕ) : to_gray a ^^^ to_gray b = to_gray (a ^^^ b) := by
  unfold to_gray
  rw [xor_shiftRight]
  apply Nat.eq_of_testBit_eq
  intro i
  simp only [Nat.testBit_xor, Nat.testBit_shiftRight]
  cases a.testBit (1 + i) <;> cases a.testBit i <;>
    cases b.testBit (1 + i) <;> cases b.testBit i <;> rfl

theorem popCount_from_gray_parity (k g : ℕ) (hg : g < 2 ^ 2 ^ k) :
    popCount g % 2 = from_gray (2 ^ k) g % 2 := by
  have h := popCount_to_gray_parity (from_gray (2 ^ k) g)
  rw [to_gray_from_gray k g hg] at h
  exact h

theorem lowestBit_spec (W g : ℕ) (h0 : 0 < g) (hg : g < 2 ^ W) :
    ∃ t m, m % 2 = 1 ∧ g = 2 ^ t * m ∧ lowestBit W g = 2 ^ t ∧ t < W := by
  obtain ⟨t, m, hm2, hgm⟩ :=
    Nat.exists_eq_pow_mul_and_not_dvd (by omega : g ≠ 0) 2 (by omega)
  have hm : m % 2 = 1 := by omega
  subst hgm
  refine ⟨t, m, hm, rfl, ?_, ?_⟩
  · unfold lowestBit negU
    rw [Nat.mod_eq_of_lt (by omega : 2 ^ W - 2 ^ t * m < 2 ^ W)]
    exact and_two_pow_sub t W m hm hg
  · by_contra hts
    have hW : W ≤ t := by omega
    have h1 : (2 : ℕ) ^ W ≤ 2 ^ t := Nat.pow_le_pow_right (by omega) hW
    have h2 : 2 ^ t ≤ 2 ^ t * m :=
      Nat.le_mul_of_pos_right _ (by omega)
    omega

theorem lowbit_succ_lt (W t m : ℕ) (hm : m % 2 = 1) (hlt : 2 ^ t * m < 2 ^ W)
    (hne : 2 ^ t * m ≠ 2 ^ (W - 1)) (htW : t < W) : t + 1 < W := by
  rcases Nat.lt_or_ge (t + 1) W with h | h
  · exact h
  · exfalso
    have ht : t = W - 1 := by omega
    subst ht
    have hp : (2 : ℕ) ^ W = 2 ^ (W - 1) * 2 := by
      conv_lhs => rw [show W = (W - 1) + 1 by omega]
      rw [pow_succ]
    rw [hp] at hlt
    have hm2 : m < 2 := Nat.lt_of_mul_lt_mul_left hlt
    have hm1 : m = 1 := by omega
    subst hm1
    simp at hne

theorem shiftLeft_one_pow (t : ℕ) : (2 : ℕ) ^ t <<< 1 = 2 ^ (t + 1) := by
  rw [Nat.shiftLeft_eq, pow_one, pow_succ]

theorem msb_eq_pow (W : ℕ) : msb W = 2 ^ (W - 1) := by
  unfold msb
  rw [Nat.one_shiftLeft]

theorem xor_two_mul_add_one_two (a : ℕ) : (2 * a + 1) ^^^ 2 = 2 * (a ^^^ 1) + 1 := by
  have h := two_mul_add_xor a 1 1 0 (by omega) (by omega)
  have h2 : 2 * 1 + 0 = 2 := by omega
  have h10 : (1 : ℕ) ^^^ 0 = 1 := rfl
  rw [h2, h10] at h
  exact h

/-- Evaluation of `operator++` in the odd, non-boundary case: the stored
representation `g = 2 ^ t * m` (`m` odd) becomes `g XOR 2 ^ (t + 1)`. -/
theorem succ_g_odd_eval (W g : ℕ) (hg : g < 2 ^ W) (hne : g ≠ 2 ^ (W - 1))
    (hodd : is_odd g = true) :
    ∃ t, lowestBit W g = 2 ^ t ∧ t + 1 < W ∧ succ_g W g = g ^^^ 2 ^ (t + 1) := by
  have hpc : popCount g % 2 = 1 := (is_odd_iff g).mp hodd
  have h0 : 0 < g := by
    rcases Nat.eq_zero_or_pos g with h | h
    · subst h; rw [popCount_zero] at hpc; omega
    · exact h
  obtain ⟨t, m, hm, hgm, hlow, htW⟩ := lowestBit_spec W g h0 hg
  have ht1 : t + 1 < W := by
    apply lowbit_succ_lt W t m hm _ _ htW
    · rw [← hgm]; exact hg
    · rw [← hgm]; exact hne
  have hp1 : (2 : ℕ) ^ (t + 1) < 2 ^ W := Nat.pow_lt_pow_right (by omega) ht1
  refine ⟨t, hlow, ht1, ?_⟩
  unfold succ_g
  rw [hodd, if_pos rfl, if_neg (by rw [msb_eq_pow]; exact hne), hlow,
      shiftLeft_one_pow, Nat.mod_eq_of_lt hp1]

/-- Evaluation of `operator--` in the even, non-zero case. -/
theorem pred_g_even_eval (W g : ℕ) (hg : g < 2 ^ W) (h0 : 0 < g)
    (hodd : is_odd g = false) :
    ∃ t, lowestBit W g = 2 ^ t ∧ t + 1 < W ∧ pred_g W g = g ^^^ 2 ^ (t + 1) := by
  have hpc : popCount g % 2 = 0 := (is_odd_eq_false_iff g).mp hodd
  obtain ⟨t, m, hm, hgm, hlow, htW⟩ := lowestBit_spec W g h0 hg
  have hne : g ≠ 2 ^ (W - 1) := by
    intro h
    rw [h] at hpc
    rw [popCount_two_pow] at hpc
    omega
  have ht1 : t + 1 < W := by
    apply lowbit_succ_lt W t m hm _ _ htW
    · rw [← hgm]; exact hg
    · rw [← hgm]; exact hne
  have hp1 : (2 : ℕ) ^ (t + 1) < 2 ^ W := Nat.pow_lt_pow_right (by omega) ht1
  refine ⟨t, hlow, ht1, ?_⟩
  unfold pred_g
  rw [hodd]
  rw [if_neg (by simp), if_neg (by omega), hlow, shiftLeft_one_pow,
      Nat.mod_eq_of_lt hp1]

/-- Core inverse law on representations: away from the maximum pattern,
`operator--` undoes `operator++`. -/
theorem pred_succ_eq (W g : ℕ) (hg : g < 2 ^ W) (hne : g ≠ 2 ^ (W - 1)) :
    pred_g W (succ_g W g) = g := by
  cases hodd : is_odd g with
  | true =>
    have hpc : popCount g % 2 = 1 := (is_odd_iff g).mp hodd
    have h0 : 0 < g := by
      rcases Nat.eq_zero_or_pos g with h | h
      · subst h; rw [popCount_zero] at hpc; omega
      · exact h
    obtain ⟨t, m, hm, hgm, hlow, htW⟩ := lowestBit_spec W g h0 hg
    obtain ⟨t₂, hlow2, ht2, hsucc⟩ := succ_g_odd_eval W g hg hne hodd
    have ht : t₂ = t := by
      have := hlow2.symm.trans hlow
      exact Nat.pow_right_injective (by omega) this
    subst ht
    rw [hsucc]
    have hp1 : (2 : ℕ) ^ (t₂ + 1) < 2 ^ W := Nat.pow_lt_pow_right (by omega) ht2
    have hpc2 : popCount (g ^^^ 2 ^ (t₂ + 1)) % 2 = 0 := by
      have h := popCount_xor_mod_two g (2 ^ (t₂ + 1))
      rw [popCount_two_pow] at h
      omega
    have hodd2 : is_odd (g ^^^ 2 ^ (t₂ + 1)) = false := (is_odd_eq_false_iff _).mpr hpc2
    have hg2eq : g ^^^ 2 ^ (t₂ + 1) = 2 ^ t₂ * (m ^^^ 2) := by
      rw [hgm, pow_succ, two_pow_mul_xor]
    have hms : (m ^^^ 2) % 2 = 1 := by
      obtain ⟨a, rfl⟩ : ∃ a, m = 2 * a + 1 := ⟨m / 2, by omega⟩
      rw [xor_two_mul_add_one_two]
      omega
    have h02 : 0 < g ^^^ 2 ^ (t₂ + 1) := by
      rw [hg2eq]
      exact Nat.mul_pos (Nat.two_pow_pos t₂) (by omega)
    have hg2lt : g ^^^ 2 ^ (t₂ + 1) < 2 ^ W := Nat.xor_lt_two_pow hg hp1
    have hlow3 : lowestBit W (g ^^^ 2 ^ (t₂ + 1)) = 2 ^ t₂ := by
      unfold lowestBit negU
      rw [hg2eq,
          Nat.mod_eq_of_lt (by omega : 2 ^ W - 2 ^ t₂ * (m ^^^ 2) < 2 ^ W)]
      exact and_two_pow_sub t₂ W (m ^^^ 2) hms (by rw [← hg2eq]; exact hg2lt)
    unfold pred_g
    rw [hodd2]
    rw [if_neg (by simp), if_neg (by omega), hlow3, shiftLeft_one_pow,
        Nat.mod_eq_of_lt hp1, Nat.xor_cancel_right]
  | false =>
    have hpc : popCount g % 2 = 0 := (is_odd_eq_false_iff g).mp hodd
    have hsucc : succ_g W g = g ^^^ 1 := by
      unfold succ_g
      rw [hodd]
      exact if_neg (by simp)
    have hpc2 : popCount (g ^^^ 1) % 2 = 1 := by
      have h := popCount_xor_mod_two g 1
      rw [popCount_one] at h
      omega
    have hodd2 : is_odd (g ^^^ 1) = true := (is_odd_iff _).mpr hpc2
    rw [hsucc]
    unfold pred_g
    rw [hodd2, if_pos rfl, Nat.xor_cancel_right]

/-! ### The claims -/

/-- C1: for every unsigned value `x` of the wrapped width `W = 2 ^ k`,
converting to Gray code and back is the identity, and for every `W`-bit
pattern `g`, converting from Gray code and back is the identity, so the
mapping implemented by the `gray_code(value_type)` constructor and the
explicit conversion `operator value_type` is a bijection on `[0, 2^W)`. -/
theorem C1_roundtrip_bijection (k x g : ℕ) (hx : x < 2 ^ 2 ^ k) (hg : g < 2 ^ 2 ^ k) :
    from_gray (2 ^ k) (to_gray x) = x ∧ to_gray (from_gray (2 ^ k) g) = g ∧
      ∀ y, y < 2 ^ 2 ^ k → to_gray x = to_gray y → x = y := by
  refine ⟨from_gray_to_gray k x hx, to_gray_from_gray k g hg, ?_⟩
  intro y hy hxy
  have h1 := from_gray_to_gray k x hx
  have h2 := from_gray_to_gray k y hy
  rw [hxy] at h1
  omega

/-- Witness for C1 at width 8, `x = 5`, `g = 7`. -/
theorem C1_roundtrip_bijection_witness :
    from_gray (2 ^ 3) (to_gray 5) = 5 ∧ to_gray (from_gray (2 ^ 3) 7) = 7 := by
  have h := C1_roundtrip_bijection 3 5 7 (by decide) (by decide)
  exact ⟨h.1, h.2.1⟩

/-- C2: at width `W = 2 ^ k`, the Gray code of the maximum value
`2 ^ W - 1` is the single most-significant-bit pattern `1 << (W - 1)`;
`operator++` sends that pattern to representation 0, which converts back
to the binary value 0; symmetrically `operator--` sends representation 0
to `1 << (W - 1)`, which converts back to `2 ^ W - 1`. -/
theorem C2_wraparound (k : ℕ) :
    to_gray (2 ^ 2 ^ k - 1) = msb (2 ^ k) ∧
    succ_g (2 ^ k) (msb (2 ^ k)) = 0 ∧
    from_gray (2 ^ k) 0 = 0 ∧
    pred_g (2 ^ k) 0 = msb (2 ^ k) ∧
    from_gray (2 ^ k) (msb (2 ^ k)) = 2 ^ 2 ^ k - 1 ∧
    msb (2 ^ k) = 2 ^ (2 ^ k - 1) := by
  have hk1 : (1 : ℕ) ≤ 2 ^ k := Nat.one_le_two_pow
  have hW : 2 ^ k = (2 ^ k - 1) + 1 := by omega
  have htg : to_gray (2 ^ 2 ^ k - 1) = msb (2 ^ k) := by
    rw [msb_eq_pow]
    conv_lhs => rw [hW]
    exact to_gray_ones (2 ^ k - 1)
  have hmax : 2 ^ 2 ^ k - 1 < 2 ^ 2 ^ k := by
    have h1 : (1 : ℕ) ≤ 2 ^ 2 ^ k := Nat.one_le_two_pow
    omega
  have hsucc : succ_g (2 ^ k) (msb (2 ^ k)) = 0 := by
    unfold succ_g
    have hio : is_odd (msb (2 ^ k)) = true := by
      rw [msb_eq_pow]
      exact (is_odd_iff _).mpr (by rw [popCount_two_pow])
    rw [hio, if_pos rfl, if_pos rfl]
  have hfg0 : from_gray (2 ^ k) 0 = 0 := convFold_zero_val _ _
  have hpred : pred_g (2 ^ k) 0 = msb (2 ^ k) := by
    unfold pred_g
    have hio : is_odd 0 = false := rfl
    rw [hio, if_neg (by simp), if_pos rfl]
  have hfgm : from_gray (2 ^ k) (msb (2 ^ k)) = 2 ^ 2 ^ k - 1 := by
    rw [← htg]
    exact from_gray_to_gray k _ hmax
  exact ⟨htg, hsucc, hfg0, hpred, hfgm, msb_eq_pow _⟩

/-- C3: away from the wraparound boundary patterns, `operator++` flips
bit 0 when the represented value is even and XORs the representation with
the doubled lowest set bit `y = representation AND (-representation)` when
it is odd; `operator--` applies the mirror rule. -/
theorem C3_step_rule (k g : ℕ) (hg : g < 2 ^ 2 ^ k) :
    (g ≠ msb (2 ^ k) →
      succ_g (2 ^ k) g =
        if from_gray (2 ^ k) g % 2 = 0 then g ^^^ 1
        else g ^^^ (lowestBit (2 ^ k) g <<< 1)) ∧
    (g ≠ 0 →
      pred_g (2 ^ k) g =
        if from_gray (2 ^ k) g % 2 = 1 then g ^^^ 1
        else g ^^^ (lowestBit (2 ^ k) g <<< 1)) := by
  have hbr := popCount_from_gray_parity k g hg
  constructor
  · intro hne
    have hne2 : g ≠ 2 ^ (2 ^ k - 1) := by rw [← msb_eq_pow]; exact hne
    cases hodd : is_odd g with
    | true =>
      have hpc : popCount g % 2 = 1 := (is_odd_iff g).mp hodd
      obtain ⟨t, hlow, ht1, hsucc⟩ := succ_g_odd_eval (2 ^ k) g hg hne2 hodd
      rw [hsucc, if_neg (by omega), hlow, shiftLeft_one_pow]
    | false =>
      have hpc : popCount g % 2 = 0 := (is_odd_eq_false_iff g).mp hodd
      have hsucc : succ_g (2 ^ k) g = g ^^^ 1 := by
        unfold succ_g
        rw [hodd]
        exact if_neg (by simp)
      rw [hsucc, if_pos (by omega)]
  · intro h0
    cases hodd : is_odd g with
    | true =>
      have hpc : popCount g % 2 = 1 := (is_odd_iff g).mp hodd
      have hpred : pred_g (2 ^ k) g = g ^^^ 1 := by
        unfold pred_g
        rw [hodd, if_pos rfl]
      rw [hpred, if_pos (by omega)]
    | false =>
      have hpc : popCount g % 2 = 0 := (is_odd_eq_false_iff g).mp hodd
      obtain ⟨t, hlow, ht1, hpred⟩ :=
        pred_g_even_eval (2 ^ k) g hg (by omega) hodd
      rw [hpred, if_neg (by omega), hlow, shiftLeft_one_pow]

/-- Witness for C3 at width 8, representation 7. -/
theorem C3_step_rule_witness :
    (succ_g (2 ^ 3) 7 =
      if from_gray (2 ^ 3) 7 % 2 = 0 then 7 ^^^ 1
      else 7 ^^^ (lowestBit (2 ^ 3) 7 <<< 1)) ∧
    (pred_g (2 ^ 3) 7 =
      if from_gray (2 ^ 3) 7 % 2 = 1 then 7 ^^^ 1
      else 7 ^^^ (lowestBit (2 ^ 3) 7 <<< 1)) := by
  have h := C3_step_rule 3 7 (by decide)
  exact ⟨h.1 (by decide), h.2 (by decide)⟩

/-- C4: `is_odd(gray_code(x))` is true exactly when `x` is odd, which is
exactly when the population count of the stored representation
`to_gray x` is odd; `is_even` is the logical negation of `is_odd`. -/
theorem C4_parity_law (x g : ℕ) :
    (is_odd (to_gray x) = true ↔ x % 2 = 1) ∧
    (is_odd (to_gray x) = true ↔ popCount (to_gray x) % 2 = 1) ∧
    is_even g = !is_odd g := by
  refine ⟨?_, is_odd_iff _, rfl⟩
  rw [is_odd_iff, popCount_to_gray_parity]

/-- C5: for every `x` whose Gray code is not the maximum pattern,
`operator--` after `operator++` returns to the original code. -/
theorem C5_succ_pred_inverse (W x : ℕ) (hx : x < 2 ^ W) (hne : to_gray x ≠ msb W) :
    pred_g W (succ_g W (to_gray x)) = to_gray x := by
  apply pred_succ_eq W (to_gray x) (to_gray_lt hx)
  rw [← msb_eq_pow]
  exact hne

/-- Witness for C5 at width 8, `x = 5`. -/
theorem C5_succ_pred_inverse_witness :
    pred_g 8 (succ_g 8 (to_gray 5)) = to_gray 5 :=
  C5_succ_pred_inverse 8 5 (by decide) (by decide)

/-- C6: the portable XOR-folding parity fallback agrees with the
intrinsic-based `is_odd` on every representation of width `W = 2 ^ k`,
and both equal the population count modulo 2. -/
theorem C6_parity_implementations (k g : ℕ) (hg : g < 2 ^ 2 ^ k) :
    is_odd_fold (2 ^ k) g = is_odd g ∧ (is_odd g = true ↔ popCount g % 2 = 1) := by
  refine ⟨?_, is_odd_iff g⟩
  have hbr := popCount_from_gray_parity k g hg
  unfold is_odd_fold is_odd
  have h1 : convFold (2 ^ k / 2) g (2 ^ k / 2) = from_gray (2 ^ k) g := rfl
  rw [h1, Nat.and_one_is_mod, ← hbr]

/-- Witness for C6 at width 8, representation 11. -/
theorem C6_parity_implementations_witness :
    is_odd_fold (2 ^ 3) 11 = is_odd 11 ∧ (is_odd 11 = true ↔ popCount 11 % 2 = 1) :=
  C6_parity_implementations 3 11 (by decide)

/-- C7: the mixed equality operators between a Gray code and a plain
unsigned value (in either operand order) hold exactly when
`to_gray n = n XOR (n >> 1)` equals the stored representation,
equivalently exactly when the binary value the code encodes equals `n`. -/
theorem C7_mixed_equality (k n g : ℕ) (hn : n < 2 ^ 2 ^ k) (hg : g < 2 ^ 2 ^ k) :
    (gray_eq_gu g n = true ↔ to_gray n = g) ∧
    (gray_eq_ug n g = true ↔ to_gray n = g) ∧
    (to_gray n = g ↔ from_gray (2 ^ k) g = n) := by
  have hcomm : n ^^^ (n >>> 1) = to_gray n := Nat.xor_comm _ _
  refine ⟨?_, ?_, ?_⟩
  · unfold gray_eq_gu
    rw [hcomm]
    exact beq_iff_eq
  · unfold gray_eq_ug
    rw [hcomm]
    exact beq_iff_eq
  · constructor
    · intro h
      rw [← h]
      exact from_gray_to_gray k n hn
    · intro h
      rw [← h]
      exact to_gray_from_gray k g hg

/-- Witness for C7 at width 8, `n = 5`, `g = 7`. -/
theorem C7_mixed_equality_witness :
    (gray_eq_gu 7 5 = true ↔ to_gray 5 = 7) ∧
    (gray_eq_ug 5 7 = true ↔ to_gray 5 = 7) ∧
    (to_gray 5 = 7 ↔ from_gray (2 ^ 3) 7 = 5) :=
  C7_mixed_equality 3 5 7 (by decide) (by decide)

/-- C8: the homogeneous bitwise operators act directly on the raw
representations and return a Gray code; in particular the conjunction of
`gray_code(42)` and `gray_code(28)` has representation
`to_gray 42 AND to_gray 28`, not `to_gray (42 AND 28)`. -/
theorem C8_bitwise_on_representations (W a b p : ℕ) :
    gray_and a b = a &&& b ∧
    gray_or a b = a ||| b ∧
    gray_xor a b = a ^^^ b ∧
    gray_not W a = (2 ^ W - 1) ^^^ a ∧
    gray_shl W a p = (a <<< p) % 2 ^ W ∧
    gray_shr a p = a >>> p ∧
    gray_and (to_gray 42) (to_gray 28) = to_gray 42 &&& to_gray 28 ∧
    gray_and (to_gray 42) (to_gray 28) ≠ to_gray (42 &&& 28) :=
  ⟨rfl, rfl, rfl, rfl, rfl, rfl, rfl, by decide⟩

/-- C9: consecutive binary values have Gray codes that differ in exactly
one bit position: the XOR of `to_gray x` and `to_gray (x + 1)` is a
power of two. -/
theorem C9_single_bit_change (W x : ℕ) (_hx : x + 1 < 2 ^ W) :
    ∃ j, to_gray x ^^^ to_gray (x + 1) = 2 ^ j := by
  obtain ⟨s, hs⟩ := xor_succ x
  refine ⟨s, ?_⟩
  rw [to_gray_xor, hs]
  exact to_gray_ones s

/-- Witness for C9 at width 8, `x = 3`. -/
theorem C9_single_bit_change_witness :
    ∃ j, to_gray 3 ^^^ to_gray (3 + 1) = 2 ^ j :=
  C9_single_bit_change 8 3 (by decide)

/-- C10: for each of the three equality overload pairs, `operator!=`
returns exactly the logical negation of `operator==` on the same
operands. -/
theorem C10_ne_is_not_eq (a b n g : ℕ) :
    gray_ne_gg a b = !gray_eq_gg a b ∧
    gray_ne_gu g n = !gray_eq_gu g n ∧
    gray_ne_ug n g = !gray_eq_ug n g :=
  ⟨rfl, rfl, rfl⟩

end CppGray
